import Mathlib

/-!
Verification of the tcfinder transmission-cluster core (src/clusters.rs, with the
historical variant in src/main.rs) against its specification.

Embedding conventions:

* A petgraph `DiGraph<NodeW, ()>` is embedded as a `PGraph`: a list of node weights
  (positions play the role of `NodeIndex`) plus a list of directed parent-to-child
  edges given as pairs of positions, in insertion order.
* `f64` values (the target proportion `prop`) are embedded as exact rationals `ℚ`.
  Divisions and comparisons are modelled exactly; rounding artefacts of IEEE
  doubles are out of scope (the spec's section 9 itself singles the float forms
  out as unreliable, and claim C5 is stated "under exact arithmetic").
  To keep every definition computable by the kernel we build rationals with the
  core constructors `Rat.divInt` / `mkRat` (Mathlib's field operations on `ℚ` are
  `irreducible`); bridge lemmas below identify them with `*`, `/` and `round`.
* `f64::round` rounds half away from zero; on the nonnegative values produced
  here this agrees with round-half-up, which `roundHalfUp` implements.
  The Rust cast `as usize` saturates negative values to zero, as `Int.toNat` does.
* petgraph's `edges_directed(n, Outgoing)` iterates the out-edges of `n` newest
  first (reverse insertion order); `Dfs` pushes the successors of an expanded
  node onto its stack in that order, hence pops them in insertion order.
  `childrenIns` (insertion order, used by the DFS) and `childrenOut` (reverse
  insertion order, used by the breadth-first cluster search) record this.
* The breadth-first search in `tcfind` enqueues nodes without a visited set, so
  on a graph that is not a tree the Rust loop need not terminate.  The embedding
  takes an explicit fuel and returns `none` when the fuel runs out, and also
  returns `none` where the Rust code would panic (`find_root(..).unwrap()`).
  On an actual tree any fuel at least the number of nodes suffices.
* The depth-first search of `get_descendant_leaves` always terminates; its fuel
  is set to the explicit potential `pot`, which the lemmas below prove sufficient,
  so `dfsFrom` is a total function of the graph.
-/

/-- Rational value of a natural number, built from the computable core
constructor (equals the cast `(n : ℚ)`, see `ratOfNat_eq`). -/
def ratOfNat (n : Nat) : ℚ := Rat.divInt (Int.ofNat n) 1

/-- Computable product of two rationals (equals `a * b`, see `qmul_eq`). -/
def qmul (a b : ℚ) : ℚ := mkRat (a.num * b.num) (a.den * b.den)

/-- Rounding half up, computably: the floor of `q + 1/2`.  Agrees with
`f64::round` (half away from zero) on nonnegative inputs and with Mathlib's
`round` everywhere (`roundHalfUp_eq`). -/
def roundHalfUp (q : ℚ) : ℤ := (mkRat (2 * q.num + q.den) (2 * q.den)).floor

theorem ratOfNat_eq (n : Nat) : ratOfNat n = (n : ℚ) := by
  rw [ratOfNat, Rat.divInt_eq_div]
  push_cast
  exact div_one _

theorem qmul_eq (a b : ℚ) : qmul a b = a * b := by
  rw [qmul, Rat.mkRat_eq_div]
  push_cast
  rw [← div_mul_div_comm, Rat.num_div_den, Rat.num_div_den]

theorem rat_floor_eq (q : ℚ) : q.floor = ⌊q⌋ := by
  rw [Rat.floor_def', Rat.floor_def]

theorem roundHalfUp_eq (q : ℚ) : roundHalfUp q = round q := by
  have hden : ((q.den : ℚ)) ≠ 0 := by positivity
  have hnum : (q.num : ℚ) = q * q.den := (div_eq_iff hden).mp (Rat.num_div_den q)
  have hval : (mkRat (2 * q.num + q.den) (2 * q.den) : ℚ) = q + 1 / 2 := by
    rw [Rat.mkRat_eq_div]
    push_cast
    field_simp
    linear_combination (4 : ℚ) * hnum
  rw [roundHalfUp, rat_floor_eq, hval, round_eq]

/-- Node weights, as in `clusters.rs`. -/
structure NodeW where
  index : Nat
  label : String
  is_tip : Bool
  is_target : Bool

/-- Default weight used for out-of-range lookups.  The Rust code unwraps
`node_weight(..)` and would panic there; well-formed inputs never hit it. -/
def defaultNodeW : NodeW := ⟨0, "", false, false⟩

/-- A directed graph in the fashion of `petgraph::DiGraph<NodeW, ()>`:
nodes in insertion order (list position = `NodeIndex`), edges in insertion
order as (source, target) pairs of positions. -/
structure PGraph where
  nodes : List NodeW
  edges : List (Nat × Nat)

/-- Weight lookup, `tree.node_weight(n).unwrap()`. -/
def nodeW (t : PGraph) (n : Nat) : NodeW := t.nodes.getD n defaultNodeW

/-- Clade stats regarding target tips, as in `clusters.rs`. -/
structure CladeTargetStats where
  prop : ℚ
  size : Nat
  targets : Nat
deriving DecidableEq

/-- The `CladeTargetStats::threshold` constructor: derived minimum target count
`f64::round(prop * size as f64) as usize`. -/
def CladeTargetStats.threshold (prop : ℚ) (size : Nat) : CladeTargetStats :=
  ⟨prop, size, (roundHalfUp (qmul prop (ratOfNat size))).toNat⟩

/-- The `CladeTargetStats::new` constructor: `prop = targets as f64 / size as f64`.
The division is exact here; for `size = 0` the rational convention gives `prop = 0`
where `f64` would give `NaN` (see the C8 theorems). -/
def CladeTargetStats.new (size targets : Nat) : CladeTargetStats :=
  ⟨Rat.divInt (Int.ofNat targets) (Int.ofNat size), size, targets⟩

/-- Annotate targets in place (`annotate_targets` in `clusters.rs`):
`is_target = targets.contains(label)` for every node. -/
def annotate_targets (t : PGraph) (targets : List String) : PGraph :=
  { t with nodes := t.nodes.map fun w => { w with is_target := targets.contains w.label } }

/-- A node has no incoming edge (`edges_directed(n, Incoming).next().is_none()`). -/
def noIncoming (t : PGraph) (n : Nat) : Bool := t.edges.all fun e => e.2 != n

/-- Find the root (`find_root` in `clusters.rs`): the FIRST node, in index
order, with no incoming edge; `none` if every node has one. -/
def find_root (t : PGraph) : Option Nat :=
  (List.range t.nodes.length).find? fun n => noIncoming t n

/-- Immediate successors of `n` in edge-insertion order. -/
def childrenIns (t : PGraph) (n : Nat) : List Nat :=
  (t.edges.filter fun e => e.1 == n).map Prod.snd

/-- Immediate successors of `n` in petgraph iteration order
(`edges_directed(n, Outgoing)` walks newest edge first). -/
def childrenOut (t : PGraph) (n : Nat) : List Nat := (childrenIns t n).reverse

/-- Edge relation of the tree: `Edg t a b` iff there is an edge from `a` to `b`. -/
def Edg (t : PGraph) (a b : Nat) : Prop := (a, b) ∈ t.edges

/-- The finite universe of node names: all node positions and all edge
endpoints.  Only used to bound the depth-first search. -/
def uni (t : PGraph) : List Nat :=
  (List.range t.nodes.length ++ t.edges.map Prod.fst ++ t.edges.map Prod.snd).dedup

/-- Out-degree of a node. -/
def outdeg (t : PGraph) (n : Nat) : Nat := (childrenIns t n).length

/-- Potential of a DFS state: an upper bound on the number of remaining steps. -/
def pot (t : PGraph) (stack disc : List Nat) : Nat :=
  stack.length + ((uni t).map fun m => if m ∈ disc then 0 else 1 + outdeg t m).sum

/-- One step of `petgraph::visit::Dfs`: pop the stack; skip already discovered
nodes; otherwise mark the node discovered, push its successors and emit it.
(petgraph filters discovered successors at push time as well; filtering at pop
time yields the same visit sequence.)  The fuel argument only serves
termination; `pot` fuel is always enough (`dfsAux_fuel_congr`). -/
def dfsAux (t : PGraph) : Nat → List Nat → List Nat → List Nat
  | 0, _, _ => []
  | _ + 1, [], _ => []
  | fuel + 1, n :: rest, disc =>
    if n ∈ disc then dfsAux t fuel rest disc
    else n :: dfsAux t fuel (childrenIns t n ++ rest) (n :: disc)

/-- The full depth-first visit sequence from `start`. -/
def dfsFrom (t : PGraph) (start : Nat) : List Nat :=
  dfsAux t (pot t [start] []) [start] []

/-- Search the tips from the given node (`get_descendant_leaves`). -/
def get_descendant_leaves (t : PGraph) (node : Nat) : List Nat :=
  (dfsFrom t node).filter fun k => (nodeW t k).is_tip

/-- Calculate the clade stats from the given node (`calculate_clade_stats`). -/
def calculate_clade_stats (t : PGraph) (node : Nat) : CladeTargetStats :=
  CladeTargetStats.new (get_descendant_leaves t node).length
    ((get_descendant_leaves t node).filter fun k => (nodeW t k).is_target).length

/-- The qualification rule: `stats.prop >= threshold.prop && stats.size >= threshold.size`. -/
def qualifiesB (stats thr : CladeTargetStats) : Bool :=
  decide (thr.prop ≤ stats.prop) && decide (thr.size ≤ stats.size)

/-- The prune rule of `clusters.rs`: `stats.targets < threshold.targets`. -/
def pruneB (stats thr : CladeTargetStats) : Bool :=
  decide (stats.targets < thr.targets)

/-- The historical prune rule of `main.rs`:
`stats.prop * (stats.size as f64) < (threshold.size as f64)`. -/
def pruneMainB (stats thr : CladeTargetStats) : Bool :=
  decide (qmul stats.prop (ratOfNat stats.size) < ratOfNat thr.size)

/-- Internal children of a dequeued node: immediate descendants that are not
tips, in petgraph iteration order (the `children_stats` pipeline of `tcfind`). -/
def internalChildren (t : PGraph) (n : Nat) : List Nat :=
  (childrenOut t n).filter fun c => !(nodeW t c).is_tip

/-- The `for (child_node, stats) in children_stats` loop body of `tcfind`:
three-way qualify / prune / enqueue decision per internal child, threading the
results and queue accumulators. -/
def processChildren (t : PGraph) (thr : CladeTargetStats) :
    List Nat → List Nat → List Nat → List Nat × List Nat
  | [], results, queue => (results, queue)
  | c :: cs, results, queue =>
    if qualifiesB (calculate_clade_stats t c) thr then
      processChildren t thr cs (results ++ [c]) queue
    else if pruneB (calculate_clade_stats t c) thr then
      processChildren t thr cs results queue
    else
      processChildren t thr cs results (queue ++ [c])

/-- The `while let Some(node) = queue.pop_front()` loop of `tcfind` in
`clusters.rs`.  Runs out of fuel only on inputs where the Rust loop would not
terminate (impossible on trees). -/
def tcfindLoop (t : PGraph) (thr : CladeTargetStats) :
    Nat → List Nat → List Nat → Option (List Nat)
  | _, results, [] => some results
  | 0, _, _ :: _ => none
  | fuel + 1, results, node :: rest =>
    tcfindLoop t thr fuel (processChildren t thr (internalChildren t node) results rest).1
      (processChildren t thr (internalChildren t node) results rest).2

/-- Find transmission clusters (`tcfind` in `clusters.rs`).  `none` models the
panic on a rootless graph and fuel exhaustion on a cyclic one. -/
def tcfind (t : PGraph) (thr : CladeTargetStats) (fuel : Nat) : Option (List Nat) :=
  match find_root t with
  | none => none
  | some root =>
    if qualifiesB (calculate_clade_stats t root) thr then
      tcfindLoop t thr fuel [root] []
    else if pruneB (calculate_clade_stats t root) thr then
      some []
    else
      tcfindLoop t thr fuel [] [root]

/-- The loop of the historical `tcfind` of `main.rs`: identical except for the
prune test (its `CladeTargetStats` has no `targets` field; on the fields both
variants read, the two stats structures agree). -/
def processChildrenMain (t : PGraph) (thr : CladeTargetStats) :
    List Nat → List Nat → List Nat → List Nat × List Nat
  | [], results, queue => (results, queue)
  | c :: cs, results, queue =>
    if qualifiesB (calculate_clade_stats t c) thr then
      processChildrenMain t thr cs (results ++ [c]) queue
    else if pruneMainB (calculate_clade_stats t c) thr then
      processChildrenMain t thr cs results queue
    else
      processChildrenMain t thr cs results (queue ++ [c])

/-- The while loop of the historical `tcfind` of `main.rs`. -/
def tcfindLoopMain (t : PGraph) (thr : CladeTargetStats) :
    Nat → List Nat → List Nat → Option (List Nat)
  | _, results, [] => some results
  | 0, _, _ :: _ => none
  | fuel + 1, results, node :: rest =>
    tcfindLoopMain t thr fuel (processChildrenMain t thr (internalChildren t node) results rest).1
      (processChildrenMain t thr (internalChildren t node) results rest).2

/-- The historical `tcfind` of `main.rs` (float prune form). -/
def tcfindMain (t : PGraph) (thr : CladeTargetStats) (fuel : Nat) : Option (List Nat) :=
  match find_root t with
  | none => none
  | some root =>
    if qualifiesB (calculate_clade_stats t root) thr then
      tcfindLoopMain t thr fuel [root] []
    else if pruneMainB (calculate_clade_stats t root) thr then
      some []
    else
      tcfindLoopMain t thr fuel [] [root]

/-- Extracts the tip labels of a vector of clade roots, each cluster sorted,
the list of clusters sorted (`extract_clade_tip_labels`).  Rust's stable
`sort` is embedded as insertion sort: under the total antisymmetric
lexicographic order the sorted permutation is unique, so any correct sort
computes the same list. -/
def extract_clade_tip_labels (t : PGraph) (nodes : List Nat) : List (List String) :=
  List.insertionSort (fun a b => a ≤ b)
    (nodes.map fun node =>
      List.insertionSort (fun a b => a ≤ b)
        ((get_descendant_leaves t node).map fun tip => (nodeW t tip).label))

/-- Example tree for the witnesses: root 0 with an internal child 1 (two target
tips 2, 3 below it) and one non-target tip child 4. -/
def ex1 : PGraph :=
  { nodes :=
      [⟨100, "r", false, false⟩, ⟨101, "i", false, false⟩,
       ⟨1, "a", true, true⟩, ⟨2, "b", true, true⟩, ⟨3, "c", true, false⟩]
    edges := [(0, 1), (0, 4), (1, 2), (1, 3)] }

/-- Depth grading for `ex1` (witnesses the absence of cycles). -/
def ex1depth (n : Nat) : Nat := [0, 1, 2, 2, 1].getD n 0

/-- The default threshold of the tool: minimum proportion 0.9, minimum size 2. -/
def thr1 : CladeTargetStats := CladeTargetStats.threshold (Rat.divInt 9 10) 2

/-- Tree separating the two prune rules: root 0 has an internal child 1 with
ten tips 2..11 (nine of them targets) and one non-target tip child 12. -/
def ex5 : PGraph :=
  { nodes :=
      [⟨0, "r", false, false⟩, ⟨1, "i", false, false⟩,
       ⟨2, "t2", true, true⟩, ⟨3, "t3", true, true⟩, ⟨4, "t4", true, true⟩,
       ⟨5, "t5", true, true⟩, ⟨6, "t6", true, true⟩, ⟨7, "t7", true, true⟩,
       ⟨8, "t8", true, true⟩, ⟨9, "t9", true, true⟩, ⟨10, "t10", true, true⟩,
       ⟨11, "t11", true, false⟩, ⟨12, "t12", true, false⟩]
    edges := [(0, 1), (1, 2), (1, 3), (1, 4), (1, 5), (1, 6), (1, 7), (1, 8),
              (1, 9), (1, 10), (1, 11), (0, 12)] }

/-- Threshold with proportion 0.9 and size 10: its derived target count is
`round(9) = 9`, strictly below its size. -/
def thr5 : CladeTargetStats := CladeTargetStats.threshold (Rat.divInt 9 10) 10

/-- Tree with no target tips: root 0, internal child 1, non-target tips 2, 3. -/
def ex6 : PGraph :=
  { nodes :=
      [⟨0, "r", false, false⟩, ⟨1, "i", false, false⟩,
       ⟨2, "a", true, false⟩, ⟨3, "b", true, false⟩]
    edges := [(0, 1), (1, 2), (1, 3)] }

/-- Threshold with positive proportion 1/3 and size 1 whose derived target
count `round(1/3) = 0` disables the prune rule. -/
def thr6 : CladeTargetStats := CladeTargetStats.threshold (Rat.divInt 1 3) 1

/-- Graph with two nodes and no edges: both nodes lack incoming edges. -/
def ex7 : PGraph :=
  { nodes := [⟨0, "x", false, false⟩, ⟨1, "y", false, false⟩], edges := [] }

/-- Graph whose two nodes form a cycle: no node lacks an incoming edge. -/
def ex7c : PGraph :=
  { nodes := [⟨0, "x", false, false⟩, ⟨1, "y", false, false⟩],
    edges := [(0, 1), (1, 0)] }

/-- A single internal node with no descendants: zero descendant tips. -/
def ex8 : PGraph := { nodes := [⟨0, "z", false, false⟩], edges := [] }

/-- A tree that consists of a single target tip. -/
def exTip : PGraph := { nodes := [⟨0, "A", true, true⟩], edges := [] }

/-- Threshold with proportion 1 and size 1. -/
def thrTip : CladeTargetStats := CladeTargetStats.threshold (Rat.divInt 1 1) 1

theorem edge_of_mem_childrenIns {t : PGraph} {n c : Nat} (h : c ∈ childrenIns t n) :
    Edg t n c := by
  unfold childrenIns at h
  rcases List.mem_map.mp h with ⟨e, he, hec⟩
  rcases List.mem_filter.mp he with ⟨hmem, hfst⟩
  have h1 : e.1 = n := by simpa using hfst
  have : e = (n, c) := by
    cases e
    simp only [Prod.mk.injEq]
    exact ⟨h1, hec⟩
  rw [this] at hmem
  exact hmem

theorem mem_childrenIns_of_edge {t : PGraph} {n c : Nat} (h : Edg t n c) :
    c ∈ childrenIns t n := by
  unfold childrenIns
  refine List.mem_map.mpr ⟨(n, c), List.mem_filter.mpr ⟨h, by simp⟩, rfl⟩

theorem edge_of_mem_internalChildren {t : PGraph} {n c : Nat}
    (h : c ∈ internalChildren t n) : Edg t n c := by
  unfold internalChildren childrenOut at h
  have := (List.mem_filter.mp h).1
  exact edge_of_mem_childrenIns (List.mem_reverse.mp this)

theorem processChildren_eq (t : PGraph) (thr : CladeTargetStats)
    (cs results queue : List Nat) :
    processChildren t thr cs results queue =
      (results ++ cs.filter fun c => qualifiesB (calculate_clade_stats t c) thr,
       queue ++ cs.filter fun c =>
         !qualifiesB (calculate_clade_stats t c) thr
           && !pruneB (calculate_clade_stats t c) thr) := by
  induction cs generalizing results queue with
  | nil => simp [processChildren]
  | cons c cs ih =>
    by_cases hq : qualifiesB (calculate_clade_stats t c) thr
    · simp [processChildren, hq, ih]
    · by_cases hp : pruneB (calculate_clade_stats t c) thr
      · simp [processChildren, hq, hp, ih]
      · simp [processChildren, hq, hp, ih]

/-- Invariant preservation through the breadth-first loop of `tcfind`: any
property of the (results, queue) pair preserved by each dequeue step holds of
the final results when the loop terminates. -/
theorem tcfindLoop_inv (t : PGraph) (thr : CladeTargetStats)
    (P : List Nat → List Nat → Prop)
    (hstep : ∀ results node rest, P results (node :: rest) →
      P (processChildren t thr (internalChildren t node) results rest).1
        (processChildren t thr (internalChildren t node) results rest).2) :
    ∀ fuel results queue res, P results queue →
      tcfindLoop t thr fuel results queue = some res → P res [] := by
  intro fuel
  induction fuel with
  | zero =>
    intro results queue res hP h
    cases queue with
    | nil =>
      unfold tcfindLoop at h
      cases h
      exact hP
    | cons n rest => simp [tcfindLoop] at h
  | succ fuel ih =>
    intro results queue res hP h
    cases queue with
    | nil =>
      unfold tcfindLoop at h
      cases h
      exact hP
    | cons n rest =>
      unfold tcfindLoop at h
      exact ih _ _ _ (hstep results n rest hP) h

theorem tcfind_eq_of_root (t : PGraph) (thr : CladeTargetStats) (fuel root : Nat)
    (hroot : find_root t = some root) :
    tcfind t thr fuel =
      if qualifiesB (calculate_clade_stats t root) thr then
        tcfindLoop t thr fuel [root] []
      else if pruneB (calculate_clade_stats t root) thr then some []
      else tcfindLoop t thr fuel [] [root] := by
  unfold tcfind
  rw [hroot]

theorem tcfind_eq_of_no_root (t : PGraph) (thr : CladeTargetStats) (fuel : Nat)
    (hroot : find_root t = none) : tcfind t thr fuel = none := by
  unfold tcfind
  rw [hroot]

/-- Membership in the final result list of `tcfind` only arises for the root
(when it qualifies) or for an internal child pushed in a qualifying branch. -/
theorem tcfind_mem_qualifiesB (t : PGraph) (thr : CladeTargetStats)
    (fuel : Nat) (res : List Nat) (h : tcfind t thr fuel = some res) :
    ∀ n ∈ res, qualifiesB (calculate_clade_stats t n) thr = true := by
  have hstep : ∀ results node rest,
      (∀ n ∈ results, qualifiesB (calculate_clade_stats t n) thr = true) →
      (∀ n ∈ (processChildren t thr (internalChildren t node) results rest).1,
        qualifiesB (calculate_clade_stats t n) thr = true) := by
    intro results node rest hP n hn
    rw [processChildren_eq] at hn
    rcases List.mem_append.mp hn with hold | hnew
    · exact hP n hold
    · exact (List.mem_filter.mp hnew).2
  cases hroot : find_root t with
  | none => rw [tcfind_eq_of_no_root t thr fuel hroot] at h; cases h
  | some root =>
    rw [tcfind_eq_of_root t thr fuel root hroot] at h
    by_cases hq : qualifiesB (calculate_clade_stats t root) thr
    · rw [if_pos hq] at h
      exact fun n hn =>
        tcfindLoop_inv t thr (fun results _ => ∀ n ∈ results,
            qualifiesB (calculate_clade_stats t n) thr = true)
          (fun results node rest hP => hstep results node rest hP)
          fuel [root] [] res (by simpa using hq) h n hn
    · rw [if_neg hq] at h
      by_cases hp : pruneB (calculate_clade_stats t root) thr
      · rw [if_pos hp] at h
        cases h
        intro n hn
        cases hn
      · rw [if_neg hp] at h
        exact fun n hn =>
          tcfindLoop_inv t thr (fun results _ => ∀ n ∈ results,
              qualifiesB (calculate_clade_stats t n) thr = true)
            (fun results node rest hP => hstep results node rest hP)
            fuel [] [root] res (by simp) h n hn

/-- C1.  Qualification soundness: every node index returned by `tcfind`
satisfies the qualification rule for the stats computed by
`calculate_clade_stats` on that node: `prop >= threshold.prop` and
`size >= threshold.size`. -/
theorem tcfind_qualification_sound (t : PGraph) (thr : CladeTargetStats)
    (fuel : Nat) (res : List Nat) (h : tcfind t thr fuel = some res) :
    ∀ n ∈ res, thr.prop ≤ (calculate_clade_stats t n).prop ∧
      thr.size ≤ (calculate_clade_stats t n).size := by
  intro n hn
  have hq := tcfind_mem_qualifiesB t thr fuel res h n hn
  unfold qualifiesB at hq
  rw [Bool.and_eq_true, decide_eq_true_eq, decide_eq_true_eq] at hq
  exact hq

theorem tcfind_qualification_sound_witness :
    tcfind ex1 thr1 10 = some [1] ∧
    (thr1.prop ≤ (calculate_clade_stats ex1 1).prop ∧
      thr1.size ≤ (calculate_clade_stats ex1 1).size) :=
  ⟨by decide, tcfind_qualification_sound ex1 thr1 10 [1] (by decide) 1 (by decide)⟩

/-- Parent version of the loop invariant: every result that is not the root
was pushed as a child of a dequeued node, and dequeued nodes never satisfy the
qualification rule. -/
theorem tcfind_parent_unqualified (t : PGraph) (thr : CladeTargetStats)
    (fuel : Nat) (res : List Nat) (r : Nat) (hroot : find_root t = some r)
    (h : tcfind t thr fuel = some res) :
    ∀ c ∈ res, c ≠ r →
      ∃ p, Edg t p c ∧ qualifiesB (calculate_clade_stats t p) thr = false := by
  have hstep : ∀ results node rest,
      ((∀ c ∈ results, c = r ∨ ∃ p, Edg t p c ∧
          qualifiesB (calculate_clade_stats t p) thr = false) ∧
        (∀ q ∈ node :: rest, qualifiesB (calculate_clade_stats t q) thr = false)) →
      ((∀ c ∈ (processChildren t thr (internalChildren t node) results rest).1,
          c = r ∨ ∃ p, Edg t p c ∧
            qualifiesB (calculate_clade_stats t p) thr = false) ∧
        (∀ q ∈ (processChildren t thr (internalChildren t node) results rest).2,
          qualifiesB (calculate_clade_stats t q) thr = false)) := by
    intro results node rest ⟨hres, hque⟩
    constructor
    · intro c hc
      rw [processChildren_eq] at hc
      rcases List.mem_append.mp hc with hold | hnew
      · exact hres c hold
      · refine Or.inr ⟨node, edge_of_mem_internalChildren (List.mem_filter.mp hnew).1, ?_⟩
        exact hque node (List.mem_cons_self node rest)
    · intro q hq
      rw [processChildren_eq] at hq
      rcases List.mem_append.mp hq with hold | hnew
      · exact hque q (List.mem_cons_of_mem node hold)
      · have := (List.mem_filter.mp hnew).2
        rw [Bool.and_eq_true, Bool.not_eq_eq_eq_not] at this
        exact this.1
  cases hroot2 : find_root t with
  | none => rw [tcfind_eq_of_no_root t thr fuel hroot2] at h; cases h
  | some root =>
    have hrr : root = r := by rw [hroot2] at hroot; cases hroot; rfl
    subst hrr
    rw [tcfind_eq_of_root t thr fuel root hroot2] at h
    by_cases hq : qualifiesB (calculate_clade_stats t root) thr
    · rw [if_pos hq] at h
      have := tcfindLoop_inv t thr
        (fun results queue =>
          (∀ c ∈ results, c = root ∨ ∃ p, Edg t p c ∧
            qualifiesB (calculate_clade_stats t p) thr = false) ∧
          (∀ q ∈ queue, qualifiesB (calculate_clade_stats t q) thr = false))
        hstep fuel [root] [] res
        ⟨fun c hc => Or.inl (by simpa using hc), by simp⟩ h
      intro c hc hcr
      rcases this.1 c hc with rfl | hp
      · exact absurd rfl hcr
      · exact hp
    · rw [if_neg hq] at h
      by_cases hp : pruneB (calculate_clade_stats t root) thr
      · rw [if_pos hp] at h
        cases h
        intro c hc
        cases hc
      · rw [if_neg hp] at h
        have hq0 : qualifiesB (calculate_clade_stats t root) thr = false := by
          revert hq
          cases qualifiesB (calculate_clade_stats t root) thr <;> simp
        have := tcfindLoop_inv t thr
          (fun results queue =>
            (∀ c ∈ results, c = root ∨ ∃ p, Edg t p c ∧
              qualifiesB (calculate_clade_stats t p) thr = false) ∧
            (∀ q ∈ queue, qualifiesB (calculate_clade_stats t q) thr = false))
          hstep fuel [] [root] res
          ⟨by simp, fun q hq2 => by rw [List.mem_singleton.mp hq2]; exact hq0⟩ h
        intro c hc hcr
        rcases this.1 c hc with rfl | hp2
        · exact absurd rfl hcr
        · exact hp2

/-- C4.  Maximality: every returned node that is not the tree root has a
parent whose computed clade stats fail the qualification rule. -/
theorem tcfind_maximal (t : PGraph) (thr : CladeTargetStats) (fuel : Nat)
    (res : List Nat) (r : Nat) (hroot : find_root t = some r)
    (h : tcfind t thr fuel = some res) :
    ∀ c ∈ res, c ≠ r → ∃ p, Edg t p c ∧
      ¬(thr.prop ≤ (calculate_clade_stats t p).prop ∧
        thr.size ≤ (calculate_clade_stats t p).size) := by
  intro c hc hcr
  rcases tcfind_parent_unqualified t thr fuel res r hroot h c hc hcr with ⟨p, hpe, hpq⟩
  refine ⟨p, hpe, fun hcon => ?_⟩
  have : qualifiesB (calculate_clade_stats t p) thr = true := by
    unfold qualifiesB
    rw [Bool.and_eq_true]
    exact ⟨decide_eq_true hcon.1, decide_eq_true hcon.2⟩
  rw [hpq] at this
  cases this

theorem tcfind_maximal_witness :
    tcfind ex1 thr1 10 = some [1] ∧ find_root ex1 = some 0 ∧
    (∃ p, Edg ex1 p 1 ∧
      ¬(thr1.prop ≤ (calculate_clade_stats ex1 p).prop ∧
        thr1.size ≤ (calculate_clade_stats ex1 p).size)) :=
  ⟨by decide, by decide,
    tcfind_maximal ex1 thr1 10 [1] 0 (by decide) (by decide) 1 (by decide) (by decide)⟩

theorem nodeW_no_target (t : PGraph) (ht : ∀ w ∈ t.nodes, w.is_target = false)
    (k : Nat) : (nodeW t k).is_target = false := by
  unfold nodeW
  rw [List.getD_eq_getElem?_getD]
  rcases hk : t.nodes[k]? with _ | w
  · rfl
  · exact ht w (List.getElem?_mem hk)

theorem stats_of_no_targets (t : PGraph)
    (ht : ∀ w ∈ t.nodes, w.is_target = false) (n : Nat) :
    (calculate_clade_stats t n).targets = 0 ∧ (calculate_clade_stats t n).prop = 0 := by
  have hfil : ((get_descendant_leaves t n).filter fun k => (nodeW t k).is_target) = [] := by
    rw [List.filter_eq_nil_iff]
    intro k _
    rw [nodeW_no_target t ht k]
    simp
  constructor
  · simp [calculate_clade_stats, CladeTargetStats.new, hfil]
  · simp [calculate_clade_stats, CladeTargetStats.new, hfil, Rat.divInt_eq_div]

theorem qualifiesB_false_of_zero_prop (thr stats : CladeTargetStats)
    (hp : 0 < thr.prop) (hprop : stats.prop = 0) : qualifiesB stats thr = false := by
  unfold qualifiesB
  have : ¬(thr.prop ≤ stats.prop) := by rw [hprop]; exact not_le.mpr hp
  simp [this]

/-- C6 (amended).  On a tree with no target tips and a threshold with positive
minimum proportion, `tcfind` returns the empty list whenever it returns; and
whenever the derived target count `round(prop * size)` is at least 1 the prune
rule rejects the root immediately, so the search succeeds with any fuel — in
particular with fuel 0, i.e. without processing any queue entry. -/
theorem tcfind_no_targets (t : PGraph) (thr : CladeTargetStats)
    (ht : ∀ w ∈ t.nodes, w.is_target = false) (hp : 0 < thr.prop) :
    (∀ fuel res, tcfind t thr fuel = some res → res = []) ∧
    (1 ≤ thr.targets → ∀ r, find_root t = some r → ∀ fuel,
      tcfind t thr fuel = some []) := by
  have hqf : ∀ n, qualifiesB (calculate_clade_stats t n) thr = false := fun n =>
    qualifiesB_false_of_zero_prop thr _ hp (stats_of_no_targets t ht n).2
  constructor
  · intro fuel res h
    cases hroot : find_root t with
    | none => rw [tcfind_eq_of_no_root t thr fuel hroot] at h; cases h
    | some root =>
      rw [tcfind_eq_of_root t thr fuel root hroot] at h
      rw [if_neg (by rw [hqf root]; simp)] at h
      by_cases hpr : pruneB (calculate_clade_stats t root) thr
      · rw [if_pos hpr] at h
        cases h
        rfl
      · rw [if_neg hpr] at h
        refine tcfindLoop_inv t thr (fun results _ => results = []) ?_ fuel [] [root]
          res rfl h
        intro results node rest hres
        rw [processChildren_eq, hres]
        have : (List.filter (fun c => qualifiesB (calculate_clade_stats t c) thr)
            (internalChildren t node)) = [] := by
          rw [List.filter_eq_nil_iff]
          intro c _
          rw [hqf c]
          simp
        simp [this]
  · intro htar r hroot fuel
    rw [tcfind_eq_of_root t thr fuel r hroot]
    rw [if_neg (by rw [hqf r]; simp)]
    rw [if_pos ?_]
    · unfold pruneB
      refine decide_eq_true ?_
      rw [(stats_of_no_targets t ht r).1]
      exact htar

/-- C6 counterexample: `ex6` has no target tips and `thr6.prop = 1/3 > 0`, yet
the derived target count is `round(1/3) = 0`, so the prune test `0 < 0` fails
and the root is enqueued rather than rejected: with fuel 0 the loop cannot
finish (`none`), which refutes "the search short-circuits at the root without
enqueueing or visiting any other node"; the result is still empty. -/
theorem tcfind_no_targets_counterexample :
    (∀ w ∈ ex6.nodes, w.is_target = false) ∧ ((0 : ℚ) < thr6.prop) ∧
    thr6.targets = 0 ∧ tcfind ex6 thr6 0 = none ∧ tcfind ex6 thr6 2 = some [] :=
  ⟨by decide, by decide, by decide, by decide, by decide⟩

theorem tcfind_no_targets_witness :
    tcfind ex6 (CladeTargetStats.threshold (Rat.divInt 9 10) 2) 0 = some [] :=
  (tcfind_no_targets ex6 (CladeTargetStats.threshold (Rat.divInt 9 10) 2)
    (by decide) (by decide)).2 (by decide) 0 (by decide) 0

/-- C7 (amended).  `find_root` is `Option`-valued: it returns the first node in
index order with no incoming edge, and `none` (on which `tcfind` unwraps,
i.e. panics) when every node has one.  It reports no `MalformedTree` error and
does not detect multiple rootless nodes. -/
theorem find_root_is_first_rootless (t : PGraph) (r : Nat)
    (h : find_root t = some r) :
    r < t.nodes.length ∧ ∀ e ∈ t.edges, e.2 ≠ r := by
  constructor
  · exact List.mem_range.mp (List.mem_of_find?_eq_some h)
  · have hp := List.find?_some h
    unfold noIncoming at hp
    rw [List.all_eq_true] at hp
    intro e he
    have := hp e he
    simpa using this

/-- C7 counterexample: on the two-root graph `ex7`, `find_root` silently
returns the first rootless node although node 1 has no incoming edge either;
on the rootless cycle `ex7c` it returns `none` and `tcfind` propagates the
failure (the source panics on the unwrap) — no `MalformedTree` error is
reported in either case. -/
theorem find_root_counterexample :
    find_root ex7 = some 0 ∧ noIncoming ex7 1 = true ∧
    find_root ex7c = none ∧ tcfind ex7c thr1 5 = none :=
  ⟨by decide, by decide, by decide, by decide⟩

theorem find_root_is_first_rootless_witness :
    find_root ex1 = some 0 ∧ (0 < ex1.nodes.length ∧ ∀ e ∈ ex1.edges, e.2 ≠ 0) :=
  ⟨by decide, find_root_is_first_rootless ex1 0 (by decide)⟩

/-- C8 (amended).  The stats computation is total: on a node with zero
descendant tips it returns the plain value `CladeTargetStats.new 0 0` — whose
`prop` field is the division `0 / 0` (`NaN` in the source's doubles, `0` in
this exact model) — instead of signalling an error. -/
theorem calculate_clade_stats_degenerate (t : PGraph) (n : Nat)
    (h : get_descendant_leaves t n = []) :
    calculate_clade_stats t n = CladeTargetStats.new 0 0 := by
  unfold calculate_clade_stats
  rw [h]
  rfl

/-- C8 counterexample: on the single-internal-node graph `ex8`, the node has
zero descendant tips and `calculate_clade_stats` returns the ordinary value
`CladeTargetStats.new 0 0` — no error is signalled; its `prop` is `0 / 0`
(`NaN` in the source's doubles, `0` in this exact model) and flows onwards. -/
theorem calculate_clade_stats_degenerate_counterexample :
    calculate_clade_stats ex8 0 = CladeTargetStats.new 0 0 ∧
    (calculate_clade_stats ex8 0).size = 0 ∧
    (calculate_clade_stats ex8 0).prop = 0 :=
  ⟨by decide, by decide, by decide⟩

theorem calculate_clade_stats_degenerate_witness :
    get_descendant_leaves ex8 0 = [] ∧
    calculate_clade_stats ex8 0 = CladeTargetStats.new 0 0 :=
  ⟨by decide, calculate_clade_stats_degenerate ex8 0 (by decide)⟩

/-- C10.  The qualification check never tests `is_tip`, so a tree whose unique
root is itself a target tip is returned as a one-tip cluster for
`threshold.size <= 1 <= threshold.prop <= 1`, even though tip children met
during expansion are always skipped (`internalChildren` filters them out, as
the `ex1` conjuncts show for tip 4). -/
theorem tcfind_tip_root_cluster :
    (nodeW exTip 0).is_tip = true ∧ (nodeW exTip 0).is_target = true ∧
    thrTip.size ≤ 1 ∧ thrTip.prop ≤ 1 ∧
    find_root exTip = some 0 ∧ tcfind exTip thrTip 1 = some [0] ∧
    internalChildren ex1 0 = [1] ∧ (0, 4) ∈ ex1.edges ∧
    (nodeW ex1 4).is_tip = true :=
  ⟨by decide, by decide, by decide, by decide, by decide, by decide, by decide,
    by decide, by decide⟩

theorem map_sum_if_cons (l : List Nat) (n : Nat) (disc : List Nat) (g : Nat → Nat)
    (hnd : l.Nodup) (hn : n ∈ l) (hdisc : n ∉ disc) :
    ((l.map fun m => if m ∈ n :: disc then 0 else g m).sum) + g n
      = (l.map fun m => if m ∈ disc then 0 else g m).sum := by
  induction l with
  | nil => cases hn
  | cons x xs ih =>
    rcases List.mem_cons.mp hn with rfl | hxs
    · have hnx : n ∉ xs := (List.nodup_cons.mp hnd).1
      have hmap : (xs.map fun m => if m ∈ n :: disc then 0 else g m)
          = xs.map fun m => if m ∈ disc then 0 else g m := by
        refine List.map_congr_left fun m hm => ?_
        have hmn : m ≠ n := fun h => hnx (h ▸ hm)
        simp [List.mem_cons, hmn]
      rw [List.map_cons, List.map_cons, hmap, List.sum_cons, List.sum_cons,
        if_pos (List.mem_cons_self n disc), if_neg hdisc]
      omega
    · have hxn : x ≠ n := fun h => (List.nodup_cons.mp hnd).1 (h ▸ hxs)
      have ih2 := ih (List.nodup_cons.mp hnd).2 hxs
      rw [List.map_cons, List.map_cons, List.sum_cons, List.sum_cons]
      have hx : (if x ∈ n :: disc then 0 else g x) = if x ∈ disc then 0 else g x := by
        simp [List.mem_cons, hxn]
      rw [hx]
      omega

theorem pot_cons_mem (t : PGraph) (n : Nat) (rest disc : List Nat) :
    pot t rest disc + 1 = pot t (n :: rest) disc := by
  simp only [pot, List.length_cons]
  omega

theorem not_uni_children (t : PGraph) (n : Nat) (h : n ∉ uni t) :
    childrenIns t n = [] := by
  have hfil : (t.edges.filter fun e => e.1 == n) = [] := by
    rw [List.filter_eq_nil_iff]
    intro e he hfst
    apply h
    unfold uni
    rw [List.mem_dedup]
    refine List.mem_append.mpr (Or.inl (List.mem_append.mpr (Or.inr ?_)))
    have he1 : e.1 = n := by simpa using hfst
    rw [← he1]
    exact List.mem_map_of_mem Prod.fst he
  unfold childrenIns
  rw [hfil]
  rfl

theorem pot_expand (t : PGraph) (n : Nat) (rest disc : List Nat) (h : n ∉ disc) :
    pot t (childrenIns t n ++ rest) (n :: disc) < pot t (n :: rest) disc := by
  by_cases hu : n ∈ uni t
  · have hsum := map_sum_if_cons (uni t) n disc (fun m => 1 + outdeg t m)
      (List.nodup_dedup _) hu h
    simp only at hsum
    have hlen : (childrenIns t n).length = outdeg t n := rfl
    simp only [pot, List.length_append, List.length_cons]
    omega
  · have hc : childrenIns t n = [] := not_uni_children t n hu
    have hsum : ((uni t).map fun m => if m ∈ n :: disc then 0 else 1 + outdeg t m).sum
        = ((uni t).map fun m => if m ∈ disc then 0 else 1 + outdeg t m).sum := by
      refine congrArg List.sum (List.map_congr_left fun m hm => ?_)
      have hmn : m ≠ n := fun hmn => hu (hmn ▸ hm)
      simp [List.mem_cons, hmn]
    simp only [pot, hc, List.nil_append, List.length_cons]
    omega

theorem dfsAux_nil_eq (t : PGraph) (fuel : Nat) (disc : List Nat) :
    dfsAux t fuel [] disc = [] := by
  cases fuel <;> rfl

theorem pot_pos (t : PGraph) (n : Nat) (rest disc : List Nat) :
    1 ≤ pot t (n :: rest) disc := by
  simp only [pot, List.length_cons]
  omega

/-- The DFS result does not depend on the fuel, as long as the fuel is at
least the potential of the state. -/
theorem dfsAux_fuel_congr (t : PGraph) :
    ∀ p f1 f2 stack disc, pot t stack disc = p → p ≤ f1 → p ≤ f2 →
      dfsAux t f1 stack disc = dfsAux t f2 stack disc := by
  intro p
  induction p using Nat.strong_induction_on with
  | _ p ih =>
    intro f1 f2 stack disc hpot h1 h2
    cases stack with
    | nil => rw [dfsAux_nil_eq, dfsAux_nil_eq]
    | cons n rest =>
      have hp1 : 1 ≤ p := hpot ▸ pot_pos t n rest disc
      obtain ⟨g1, rfl⟩ : ∃ g1, f1 = g1 + 1 := ⟨f1 - 1, by omega⟩
      obtain ⟨g2, rfl⟩ : ∃ g2, f2 = g2 + 1 := ⟨f2 - 1, by omega⟩
      unfold dfsAux
      by_cases hd : n ∈ disc
      · rw [if_pos hd, if_pos hd]
        have hlt := pot_cons_mem t n rest disc
        exact ih (pot t rest disc) (by omega) g1 g2 rest disc rfl (by omega) (by omega)
      · rw [if_neg hd, if_neg hd]
        have hlt := pot_expand t n rest disc hd
        rw [ih (pot t (childrenIns t n ++ rest) (n :: disc)) (by omega) g1 g2 _ _ rfl
          (by omega) (by omega)]

/-- DFS soundness: every visited node is reachable from some stack entry. -/
theorem dfsAux_sound (t : PGraph) :
    ∀ fuel stack disc m, m ∈ dfsAux t fuel stack disc →
      ∃ s ∈ stack, Relation.ReflTransGen (Edg t) s m := by
  intro fuel
  induction fuel with
  | zero =>
    intro stack disc m hm
    rw [show dfsAux t 0 stack disc = [] from rfl] at hm
    cases hm
  | succ fuel ih =>
    intro stack disc m hm
    cases stack with
    | nil => rw [dfsAux_nil_eq] at hm; cases hm
    | cons n rest =>
      unfold dfsAux at hm
      by_cases hd : n ∈ disc
      · rw [if_pos hd] at hm
        rcases ih rest disc m hm with ⟨s, hs, hreach⟩
        exact ⟨s, List.mem_cons_of_mem n hs, hreach⟩
      · rw [if_neg hd] at hm
        rcases List.mem_cons.mp hm with rfl | hm2
        · exact ⟨m, List.mem_cons_self m rest, Relation.ReflTransGen.refl⟩
        · rcases ih _ _ m hm2 with ⟨s, hs, hreach⟩
          rcases List.mem_append.mp hs with hchild | hrest
          · exact ⟨n, List.mem_cons_self n rest,
              Relation.ReflTransGen.head (edge_of_mem_childrenIns hchild) hreach⟩
          · exact ⟨s, List.mem_cons_of_mem n hrest, hreach⟩

theorem dfsAux_not_mem_disc (t : PGraph) :
    ∀ fuel stack disc m, m ∈ dfsAux t fuel stack disc → m ∉ disc := by
  intro fuel
  induction fuel with
  | zero =>
    intro stack disc m hm
    rw [show dfsAux t 0 stack disc = [] from rfl] at hm
    cases hm
  | succ fuel ih =>
    intro stack disc m hm
    cases stack with
    | nil => rw [dfsAux_nil_eq] at hm; cases hm
    | cons n rest =>
      unfold dfsAux at hm
      by_cases hd : n ∈ disc
      · rw [if_pos hd] at hm
        exact ih _ _ _ hm
      · rw [if_neg hd] at hm
        rcases List.mem_cons.mp hm with rfl | hm2
        · exact hd
        · exact fun hmd => ih _ _ _ hm2 (List.mem_cons_of_mem n hmd)

theorem dfsAux_nodup (t : PGraph) :
    ∀ fuel stack disc, (dfsAux t fuel stack disc).Nodup := by
  intro fuel
  induction fuel with
  | zero =>
    intro stack disc
    rw [show dfsAux t 0 stack disc = [] from rfl]
    exact List.nodup_nil
  | succ fuel ih =>
    intro stack disc
    cases stack with
    | nil => rw [dfsAux_nil_eq]; exact List.nodup_nil
    | cons n rest =>
      unfold dfsAux
      by_cases hd : n ∈ disc
      · rw [if_pos hd]; exact ih _ _
      · rw [if_neg hd]
        rw [List.nodup_cons]
        exact ⟨fun hmem => dfsAux_not_mem_disc t fuel _ _ n hmem
          (List.mem_cons_self n disc), ih _ _⟩

/-- Edge step avoiding a discovered set (the target must be undiscovered). -/
def EdgA (t : PGraph) (disc : List Nat) (a b : Nat) : Prop :=
  Edg t a b ∧ b ∉ disc

/-- Path surgery: a walk that avoids `disc` either ends at `x`, avoids
`x :: disc` outright, or has a suffix that starts at a child of `x` and avoids
`x :: disc` (take the part after the last visit to `x`). -/
theorem reach_avoid_cons (t : PGraph) (disc : List Nat) (x : Nat) :
    ∀ a m, Relation.ReflTransGen (EdgA t disc) a m →
      m = x ∨ Relation.ReflTransGen (EdgA t (x :: disc)) a m ∨
        ∃ c, Edg t x c ∧ c ∉ x :: disc ∧
          Relation.ReflTransGen (EdgA t (x :: disc)) c m := by
  intro a m h
  induction h using Relation.ReflTransGen.head_induction_on with
  | refl => exact Or.inr (Or.inl Relation.ReflTransGen.refl)
  | head hab hbm ih =>
    rename_i a2 b2
    rcases ih with hmx | hb | ⟨c2, hc2e, hc2d, hc2r⟩
    · exact Or.inl hmx
    · by_cases hbx : b2 = x
      · subst hbx
        rcases Relation.ReflTransGen.cases_head hb with rfl | ⟨c2, hstep, hrest⟩
        · exact Or.inl rfl
        · exact Or.inr (Or.inr ⟨c2, hstep.1, hstep.2, hrest⟩)
      · refine Or.inr (Or.inl (Relation.ReflTransGen.head ⟨hab.1, ?_⟩ hb))
        intro hbmem
        rcases List.mem_cons.mp hbmem with h1 | h2
        · exact hbx h1
        · exact hab.2 h2
    · exact Or.inr (Or.inr ⟨c2, hc2e, hc2d, hc2r⟩)

/-- DFS completeness: with enough fuel, every node reachable from an
undiscovered stack entry along a walk avoiding the discovered set is visited. -/
theorem dfsAux_complete (t : PGraph) :
    ∀ p fuel stack disc s m, pot t stack disc = p → p ≤ fuel →
      s ∈ stack → s ∉ disc → Relation.ReflTransGen (EdgA t disc) s m →
      m ∈ dfsAux t fuel stack disc := by
  intro p
  induction p using Nat.strong_induction_on with
  | _ p ih =>
    intro fuel stack disc s m hpot hfuel hs hsd hreach
    cases stack with
    | nil => cases hs
    | cons n rest =>
      have hp1 : 1 ≤ p := hpot ▸ pot_pos t n rest disc
      obtain ⟨g, rfl⟩ : ∃ g, fuel = g + 1 := ⟨fuel - 1, by omega⟩
      unfold dfsAux
      by_cases hd : n ∈ disc
      · rw [if_pos hd]
        have hsn : s ≠ n := fun h => hsd (h ▸ hd)
        have hs2 : s ∈ rest := by
          rcases List.mem_cons.mp hs with h | h
          · exact absurd h hsn
          · exact h
        have hlt := pot_cons_mem t n rest disc
        exact ih (pot t rest disc) (by omega) g rest disc s m rfl (by omega) hs2 hsd hreach
      · rw [if_neg hd]
        have hlt := pot_expand t n rest disc hd
        have hrec : ∀ s2, s2 ∈ childrenIns t n ++ rest → s2 ∉ n :: disc →
            Relation.ReflTransGen (EdgA t (n :: disc)) s2 m →
            m ∈ n :: dfsAux t g (childrenIns t n ++ rest) (n :: disc) := by
          intro s2 hs2 hs2d hr2
          exact List.mem_cons_of_mem n
            (ih (pot t (childrenIns t n ++ rest) (n :: disc)) (by omega) g _ _ s2 m rfl
              (by omega) hs2 hs2d hr2)
        rcases reach_avoid_cons t disc n s m hreach with rfl | hchain | ⟨c, hce, hcd, hcr⟩
        · exact List.mem_cons_self m _
        · by_cases hsn : s = n
          · subst hsn
            rcases Relation.ReflTransGen.cases_head hchain with rfl | ⟨c, hstep, hrest2⟩
            · exact List.mem_cons_self s _
            · exact hrec c (List.mem_append.mpr (Or.inl (mem_childrenIns_of_edge hstep.1)))
                hstep.2 hrest2
          · have hs2 : s ∈ rest := by
              rcases List.mem_cons.mp hs with h | h
              · exact absurd h hsn
              · exact h
            refine hrec s (List.mem_append.mpr (Or.inr hs2)) ?_ hchain
            intro hmem
            rcases List.mem_cons.mp hmem with h | h
            · exact hsn h
            · exact hsd h
        · exact hrec c (List.mem_append.mpr (Or.inl (mem_childrenIns_of_edge hce)))
            hcd hcr

/-- The DFS from `s` visits exactly the nodes reachable from `s`. -/
theorem mem_dfsFrom_iff (t : PGraph) (s m : Nat) :
    m ∈ dfsFrom t s ↔ Relation.ReflTransGen (Edg t) s m := by
  constructor
  · intro hm
    rcases dfsAux_sound t _ _ _ m hm with ⟨s2, hs2, hr⟩
    rw [List.mem_singleton] at hs2
    exact hs2 ▸ hr
  · intro hr
    refine dfsAux_complete t (pot t [s] []) (pot t [s] []) [s] [] s m rfl le_rfl
      (List.mem_singleton_self s) (by simp) ?_
    exact Relation.ReflTransGen.mono (fun _ _ hab => ⟨hab, by simp⟩) hr

theorem dfsFrom_nodup (t : PGraph) (s : Nat) : (dfsFrom t s).Nodup :=
  dfsAux_nodup t _ _ _

theorem dfsFrom_subset (t : PGraph) {m d : Nat}
    (h : Relation.ReflTransGen (Edg t) m d) : dfsFrom t d ⊆ dfsFrom t m := by
  intro x hx
  rw [mem_dfsFrom_iff] at hx
  rw [mem_dfsFrom_iff]
  exact h.trans hx

/-- Monotonicity of the target count along descent: the tips below a
descendant are among the tips below the ancestor. -/
theorem stats_targets_mono (t : PGraph) {m d : Nat}
    (h : Relation.ReflTransGen (Edg t) m d) :
    (calculate_clade_stats t d).targets ≤ (calculate_clade_stats t m).targets := by
  have hsub : List.Subperm (dfsFrom t d) (dfsFrom t m) :=
    List.subperm_of_subset (dfsFrom_nodup t d) (dfsFrom_subset t h)
  have hfil := List.Subperm.filter (fun k => (nodeW t k).is_target)
    (List.Subperm.filter (fun k => (nodeW t k).is_tip) hsub)
  simpa [calculate_clade_stats, CladeTargetStats.new, get_descendant_leaves]
    using hfil.length_le

theorem stats_targets_le_size (t : PGraph) (n : Nat) :
    (calculate_clade_stats t n).targets ≤ (calculate_clade_stats t n).size := by
  simpa [calculate_clade_stats, CladeTargetStats.new]
    using List.length_filter_le (fun k => (nodeW t k).is_target)
      (get_descendant_leaves t n)

theorem new_prop_eq (size targets : Nat) :
    (CladeTargetStats.new size targets).prop = (targets : ℚ) / (size : ℚ) := by
  unfold CladeTargetStats.new
  rw [Int.ofNat_eq_natCast, Int.ofNat_eq_natCast, Rat.divInt_eq_div]
  push_cast
  rfl

theorem stats_prop_eq (t : PGraph) (n : Nat) :
    (calculate_clade_stats t n).prop
      = ((calculate_clade_stats t n).targets : ℚ)
        / ((calculate_clade_stats t n).size : ℚ) := by
  unfold calculate_clade_stats
  rw [new_prop_eq]
  rfl

theorem threshold_targets_eq (p : ℚ) (s : Nat) :
    (CladeTargetStats.threshold p s).targets = (round (p * (s : ℚ))).toNat := by
  unfold CladeTargetStats.threshold
  rw [roundHalfUp_eq, qmul_eq, ratOfNat_eq]

theorem round_mono_q {a b : ℚ} (h : a ≤ b) : round a ≤ round b := by
  rw [round_eq, round_eq]
  exact Int.floor_mono (by linarith)

/-- Arithmetic core of pruning soundness: a clade that meets the proportion
and size thresholds has at least `round(threshold.prop * threshold.size)`
target tips. -/
theorem qualifies_targets_ge (p : ℚ) (s tg sz : Nat) (htle : tg ≤ sz)
    (hprop : p ≤ (tg : ℚ) / (sz : ℚ)) (hsize : s ≤ sz) :
    (CladeTargetStats.threshold p s).targets ≤ tg := by
  rw [threshold_targets_eq, Int.toNat_le]
  have hps : p * (s : ℚ) ≤ (tg : ℚ) := by
    by_cases hp : 0 ≤ p
    · rcases Nat.eq_zero_or_pos sz with hsz | hsz
      · have htg : tg = 0 := by omega
        subst htg
        subst hsz
        have hple : p ≤ 0 := by simpa using hprop
        have hp0 : p = 0 := le_antisymm hple hp
        rw [hp0]
        simp
      · have hszq : (0 : ℚ) < sz := by exact_mod_cast hsz
        have h1 : p * sz ≤ tg := (le_div_iff₀ hszq).mp hprop
        have h2 : p * (s : ℚ) ≤ p * (sz : ℚ) :=
          mul_le_mul_of_nonneg_left (by exact_mod_cast hsize) hp
        linarith
    · push_neg at hp
      have h1 : p * (s : ℚ) ≤ 0 :=
        mul_nonpos_of_nonpos_of_nonneg (le_of_lt hp) (by positivity)
      have h2 : (0 : ℚ) ≤ tg := by positivity
      linarith
  calc round (p * (s : ℚ)) ≤ round ((tg : ℚ)) := round_mono_q hps
    _ = (tg : ℤ) := by exact_mod_cast round_natCast tg

/-- C3.  Pruning soundness: no node with fewer target tips than the derived
minimum target count `round(threshold.prop * threshold.size)` is ever
returned, and no descendant of any node failing that bound — in particular of
any node the rule `stats.targets < threshold.targets` prunes — is ever
returned: pruning such subtrees never removes a node that would qualify. -/
theorem tcfind_prune_sound (t : PGraph) (p : ℚ) (s fuel : Nat) (res : List Nat)
    (h : tcfind t (CladeTargetStats.threshold p s) fuel = some res) :
    (∀ n ∈ res, ¬((calculate_clade_stats t n).targets
        < (CladeTargetStats.threshold p s).targets)) ∧
    (∀ m d, (calculate_clade_stats t m).targets
        < (CladeTargetStats.threshold p s).targets →
      Relation.TransGen (Edg t) m d → d ∉ res) := by
  have key : ∀ n ∈ res, (CladeTargetStats.threshold p s).targets
      ≤ (calculate_clade_stats t n).targets := by
    intro n hn
    have hq := tcfind_mem_qualifiesB t _ fuel res h n hn
    unfold qualifiesB at hq
    rw [Bool.and_eq_true, decide_eq_true_eq, decide_eq_true_eq] at hq
    refine qualifies_targets_ge p s _ _ (stats_targets_le_size t n) ?_ hq.2
    rw [← stats_prop_eq]
    exact hq.1
  constructor
  · intro n hn
    exact not_lt.mpr (key n hn)
  · intro m d hm hmd hd
    have h1 := key d hd
    have h2 := stats_targets_mono t hmd.to_reflTransGen
    omega

theorem tcfind_prune_sound_witness :
    tcfind ex1 (CladeTargetStats.threshold (Rat.divInt 9 10) 2) 10 = some [1] ∧
    ¬((calculate_clade_stats ex1 1).targets
        < (CladeTargetStats.threshold (Rat.divInt 9 10) 2).targets) :=
  ⟨by decide,
    (tcfind_prune_sound ex1 (Rat.divInt 9 10) 2 10 [1] (by decide)).1 1 (by decide)⟩

/-- Two nodes are unrelated by strict ancestry: neither is an ancestor of the
other along the parent-to-child edges. -/
def NoAnc (t : PGraph) (a b : Nat) : Prop :=
  ¬ Relation.TransGen (Edg t) a b ∧ ¬ Relation.TransGen (Edg t) b a

theorem noAnc_symm (t : PGraph) : ∀ {a b : Nat}, NoAnc t a b → NoAnc t b a :=
  fun h => ⟨h.2, h.1⟩

/-- Along a depth grading (each edge increases depth by one) strict ancestry
strictly increases depth. -/
theorem transGen_depth_lt (t : PGraph) (depth : Nat → Nat)
    (hdepth : ∀ e ∈ t.edges, depth e.2 = depth e.1 + 1) {a b : Nat}
    (h : Relation.TransGen (Edg t) a b) : depth a < depth b := by
  induction h with
  | single hab =>
    have := hdepth _ hab
    simp only at this
    omega
  | tail hab hbc ih =>
    have := hdepth _ hbc
    simp only at this
    omega

theorem no_self_anc (t : PGraph) (depth : Nat → Nat)
    (hdepth : ∀ e ∈ t.edges, depth e.2 = depth e.1 + 1) (n : Nat) :
    ¬ Relation.TransGen (Edg t) n n :=
  fun h => lt_irrefl _ (transGen_depth_lt t depth hdepth h)

theorem eq_of_nodup_map {α β : Type} {l : List α} {f : α → β} (h : (l.map f).Nodup)
    {a b : α} (ha : a ∈ l) (hb : b ∈ l) (hf : f a = f b) : a = b := by
  induction l with
  | nil => cases ha
  | cons x xs ih =>
    rw [List.map_cons, List.nodup_cons] at h
    rcases List.mem_cons.mp ha with rfl | ha2
    · rcases List.mem_cons.mp hb with rfl | hb2
      · rfl
      · exact absurd (hf ▸ List.mem_map_of_mem f hb2) h.1
    · rcases List.mem_cons.mp hb with rfl | hb2
      · exact absurd (hf ▸ List.mem_map_of_mem f ha2) h.1
      · exact ih h.2 ha2 hb2

/-- With no two edges sharing a target, parents are unique. -/
theorem unique_parent (t : PGraph) (hpar : (t.edges.map Prod.snd).Nodup)
    {p1 p2 c : Nat} (h1 : Edg t p1 c) (h2 : Edg t p2 c) : p1 = p2 :=
  congrArg Prod.fst (eq_of_nodup_map hpar h1 h2 rfl)

theorem internalChildren_nodup (t : PGraph)
    (hpar : (t.edges.map Prod.snd).Nodup) (n : Nat) :
    (internalChildren t n).Nodup := by
  have h1 : (childrenIns t n).Nodup := by
    unfold childrenIns
    exact List.Nodup.sublist (List.Sublist.map Prod.snd (List.filter_sublist _)) hpar
  unfold internalChildren childrenOut
  exact List.Nodup.filter _ (List.nodup_reverse.mpr h1)

/-- Discharging one dequeued node: if the accumulated results, the dequeued
node and the remaining queue are mutually unrelated and duplicate-free, then
after replacing the node by any list of its children the same holds. -/
theorem inv_expand (t : PGraph) (depth : Nat → Nat)
    (hpar : (t.edges.map Prod.snd).Nodup)
    (hdepth : ∀ e ∈ t.edges, depth e.2 = depth e.1 + 1)
    (results rest cs : List Nat) (node : Nat)
    (hcs_edge : ∀ c ∈ cs, Edg t node c) (hcs_nd : cs.Nodup)
    (hnd : (results ++ node :: rest).Nodup)
    (hpw : (results ++ node :: rest).Pairwise (NoAnc t)) :
    ((results ++ rest) ++ cs).Nodup ∧ ((results ++ rest) ++ cs).Pairwise (NoAnc t) := by
  have hside_sub : (results ++ rest).Sublist (results ++ node :: rest) :=
    List.Sublist.append_left (List.sublist_cons_self node rest) results
  have hnd_parts := List.nodup_append.mp hnd
  have hnode_notin : node ∉ results ++ rest := by
    intro hmem
    rcases List.mem_append.mp hmem with hr | hr
    · exact hnd_parts.2.2 hr (List.mem_cons_self node rest)
    · exact (List.nodup_cons.mp hnd_parts.2.1).1 hr
  have hpw_parts := List.pairwise_append.mp hpw
  have hnode_inc : ∀ x ∈ results ++ rest, NoAnc t node x := by
    intro x hx
    rcases List.mem_append.mp hx with hr | hr
    · exact noAnc_symm t (hpw_parts.2.2 x hr node (List.mem_cons_self node rest))
    · exact (List.pairwise_cons.mp hpw_parts.2.1).1 x hr
  have hc_fresh : ∀ c ∈ cs, c ∉ results ++ rest := by
    intro c hc hmem
    exact (hnode_inc c hmem).1 (Relation.TransGen.single (hcs_edge c hc))
  have hc_inc_side : ∀ c ∈ cs, ∀ x ∈ results ++ rest, NoAnc t c x := by
    intro c hc x hx
    constructor
    · intro hca
      exact (hnode_inc x hx).1 ((Relation.TransGen.single (hcs_edge c hc)).trans hca)
    · intro hxc
      rcases Relation.TransGen.tail'_iff.mp hxc with ⟨y, hxy, hyc⟩
      have hy : y = node := unique_parent t hpar hyc (hcs_edge c hc)
      subst hy
      rcases Relation.reflTransGen_iff_eq_or_transGen.mp hxy with heq | hxy2
      · exact hnode_notin (heq ▸ hx)
      · exact (hnode_inc x hx).2 hxy2
  have hc_pair_all : ∀ c1 ∈ cs, ∀ c2 ∈ cs, NoAnc t c1 c2 := by
    have key : ∀ c1 ∈ cs, ∀ c2 ∈ cs, ¬ Relation.TransGen (Edg t) c1 c2 := by
      intro c1 hc1 c2 hc2 htr
      rcases Relation.TransGen.tail'_iff.mp htr with ⟨y, hxy, hyc⟩
      have hy : y = node := unique_parent t hpar hyc (hcs_edge c2 hc2)
      subst hy
      rcases Relation.reflTransGen_iff_eq_or_transGen.mp hxy with heq | hxy2
      · have hedge := hcs_edge c1 hc1
        cases heq
        exact no_self_anc t depth hdepth _ (Relation.TransGen.single hedge)
      · exact no_self_anc t depth hdepth c1
          (hxy2.trans (Relation.TransGen.single (hcs_edge c1 hc1)))
    exact fun c1 hc1 c2 hc2 => ⟨key c1 hc1 c2 hc2, key c2 hc2 c1 hc1⟩
  constructor
  · refine List.nodup_append.mpr ⟨List.Nodup.sublist hside_sub hnd, hcs_nd, ?_⟩
    exact fun a ha hac => hc_fresh a hac ha
  · refine List.pairwise_append.mpr ⟨List.Pairwise.sublist hside_sub hpw, ?_, ?_⟩
    · exact List.pairwise_of_forall_mem_list hc_pair_all
    · exact fun a ha b hb => noAnc_symm t (hc_inc_side b hb a ha)

/-- Transfer the invariant from the expanded state to the actual successor
state of the loop, in which the children are split between the results (the
qualifying ones) and the queue (the enqueued ones). -/
theorem inv_transfer (t : PGraph) (results rest cs : List Nat) (P Q : Nat → Bool)
    (hq : ∀ c, Q c = true → P c = false)
    (h : ((results ++ rest) ++ cs).Nodup ∧
      ((results ++ rest) ++ cs).Pairwise (NoAnc t)) :
    ((results ++ cs.filter P) ++ (rest ++ cs.filter Q)).Nodup ∧
    ((results ++ cs.filter P) ++ (rest ++ cs.filter Q)).Pairwise (NoAnc t) := by
  have h1 : (cs.filter Q).Sublist (cs.filter fun c => !(P c)) := by
    refine List.monotone_filter_right cs fun a ha => ?_
    rw [hq a ha]
    rfl
  have h2 : (cs.filter P ++ cs.filter Q).Sublist
      (cs.filter P ++ cs.filter fun c => !(P c)) :=
    List.Sublist.append_left h1 _
  have h3 : (cs.filter P ++ cs.filter fun c => !(P c)).Perm cs :=
    List.filter_append_perm P cs
  have hmid1 : ((results ++ rest) ++ (cs.filter P ++ cs.filter fun c => !(P c))).Perm
      ((results ++ rest) ++ cs) := List.Perm.append_left _ h3
  have hmid2 : ((results ++ rest) ++ (cs.filter P ++ cs.filter Q)).Sublist
      ((results ++ rest) ++ (cs.filter P ++ cs.filter fun c => !(P c))) :=
    List.Sublist.append_left h2 _
  have hperm : ((results ++ cs.filter P) ++ (rest ++ cs.filter Q)).Perm
      ((results ++ rest) ++ (cs.filter P ++ cs.filter Q)) := by
    have hswap : (cs.filter P ++ (rest ++ cs.filter Q)).Perm
        (rest ++ (cs.filter P ++ cs.filter Q)) := by
      simp only [← List.append_assoc]
      exact List.Perm.append_right _ List.perm_append_comm
    simp only [List.append_assoc]
    exact List.Perm.append_left results hswap
  have hnd2 : ((results ++ rest) ++ (cs.filter P ++ cs.filter Q)).Nodup :=
    List.Nodup.sublist hmid2 (hmid1.nodup_iff.mpr h.1)
  have hpw2 : ((results ++ rest) ++ (cs.filter P ++ cs.filter Q)).Pairwise (NoAnc t) :=
    List.Pairwise.sublist hmid2
      (List.Pairwise.perm h.2 hmid1.symm fun hab => noAnc_symm t hab)
  exact ⟨hperm.nodup_iff.mpr hnd2,
    List.Pairwise.perm hpw2 hperm.symm fun hab => noAnc_symm t hab⟩

/-- C2.  Disjointness: on a graph with unique parents (no two edges share a
target) and a depth grading (which rules out cycles; every finite forest has
one), no node in the list returned by `tcfind` is an ancestor or a descendant
of another, and the list has no duplicates: the returned clades are pairwise
disjoint. -/
theorem tcfind_disjoint (t : PGraph) (thr : CladeTargetStats) (depth : Nat → Nat)
    (fuel : Nat) (res : List Nat)
    (hpar : (t.edges.map Prod.snd).Nodup)
    (hdepth : ∀ e ∈ t.edges, depth e.2 = depth e.1 + 1)
    (h : tcfind t thr fuel = some res) :
    res.Nodup ∧ res.Pairwise (NoAnc t) := by
  have hstep : ∀ results node rest,
      ((results ++ node :: rest).Nodup ∧
        (results ++ node :: rest).Pairwise (NoAnc t)) →
      (((processChildren t thr (internalChildren t node) results rest).1
          ++ (processChildren t thr (internalChildren t node) results rest).2).Nodup ∧
        ((processChildren t thr (internalChildren t node) results rest).1
          ++ (processChildren t thr (internalChildren t node) results rest).2).Pairwise
          (NoAnc t)) := by
    intro results node rest hinv
    rw [processChildren_eq]
    refine inv_transfer t results rest (internalChildren t node) _ _ ?_ ?_
    · intro c hc
      rw [Bool.and_eq_true, Bool.not_eq_eq_eq_not] at hc
      exact hc.1
    · exact inv_expand t depth hpar hdepth results rest (internalChildren t node) node
        (fun c hc => edge_of_mem_internalChildren hc)
        (internalChildren_nodup t hpar node) hinv.1 hinv.2
  have hfinal : ∀ results queue,
      ((results ++ queue).Nodup ∧ (results ++ queue).Pairwise (NoAnc t)) →
      tcfindLoop t thr fuel results queue = some res →
      res.Nodup ∧ res.Pairwise (NoAnc t) := by
    intro results queue hinv hloop
    have := tcfindLoop_inv t thr
      (fun results queue => (results ++ queue).Nodup ∧
        (results ++ queue).Pairwise (NoAnc t))
      hstep fuel results queue res hinv hloop
    simpa using this
  cases hroot : find_root t with
  | none => rw [tcfind_eq_of_no_root t thr fuel hroot] at h; cases h
  | some root =>
    rw [tcfind_eq_of_root t thr fuel root hroot] at h
    by_cases hq : qualifiesB (calculate_clade_stats t root) thr
    · rw [if_pos hq] at h
      exact hfinal [root] [] (by simp) h
    · rw [if_neg hq] at h
      by_cases hp : pruneB (calculate_clade_stats t root) thr
      · rw [if_pos hp] at h
        cases h
        simp
      · rw [if_neg hp] at h
        exact hfinal [] [root] (by simp) h

theorem tcfind_disjoint_witness :
    (ex1.edges.map Prod.snd).Nodup ∧
    (∀ e ∈ ex1.edges, ex1depth e.2 = ex1depth e.1 + 1) ∧
    tcfind ex1 thr1 10 = some [1] ∧
    ([1] : List Nat).Nodup ∧ ([1] : List Nat).Pairwise (NoAnc ex1) :=
  ⟨by decide, by decide, by decide,
    (tcfind_disjoint ex1 thr1 ex1depth 10 [1] (by decide) (by decide) (by decide)).1,
    (tcfind_disjoint ex1 thr1 ex1depth 10 [1] (by decide) (by decide) (by decide)).2⟩

/-- For computed stats, `prop * size` recovers the exact target count (also
when `size = 0`, where both sides are zero in the rational model). -/
theorem stats_qmul_eq (t : PGraph) (n : Nat) :
    qmul (calculate_clade_stats t n).prop (ratOfNat (calculate_clade_stats t n).size)
      = ((calculate_clade_stats t n).targets : ℚ) := by
  rw [qmul_eq, ratOfNat_eq, stats_prop_eq]
  rcases Nat.eq_zero_or_pos (calculate_clade_stats t n).size with hsz | hsz
  · have htg : (calculate_clade_stats t n).targets = 0 := by
      have := stats_targets_le_size t n
      omega
    rw [hsz, htg]
    simp
  · have hne : ((calculate_clade_stats t n).size : ℚ) ≠ 0 := by
      exact_mod_cast Nat.pos_iff_ne_zero.mp hsz
    rw [div_mul_cancel₀ _ hne]

theorem pruneMainB_eq (t : PGraph) (n : Nat) (thr : CladeTargetStats)
    (hts : thr.targets = thr.size) :
    pruneMainB (calculate_clade_stats t n) thr
      = pruneB (calculate_clade_stats t n) thr := by
  unfold pruneMainB pruneB
  rw [stats_qmul_eq, ratOfNat_eq, ← hts]
  exact decide_eq_decide.mpr Nat.cast_lt

theorem processChildrenMain_eq (t : PGraph) (thr : CladeTargetStats)
    (hts : thr.targets = thr.size) :
    ∀ cs results queue, processChildrenMain t thr cs results queue
      = processChildren t thr cs results queue := by
  intro cs
  induction cs with
  | nil => intro results queue; rfl
  | cons c cs ih =>
    intro results queue
    unfold processChildrenMain processChildren
    rw [pruneMainB_eq t c thr hts]
    by_cases hq : qualifiesB (calculate_clade_stats t c) thr
    · rw [if_pos hq, if_pos hq, ih]
    · rw [if_neg hq, if_neg hq]
      by_cases hp : pruneB (calculate_clade_stats t c) thr
      · rw [if_pos hp, if_pos hp, ih]
      · rw [if_neg hp, if_neg hp, ih]

theorem tcfindLoopMain_eq (t : PGraph) (thr : CladeTargetStats)
    (hts : thr.targets = thr.size) :
    ∀ fuel results queue, tcfindLoopMain t thr fuel results queue
      = tcfindLoop t thr fuel results queue := by
  intro fuel
  induction fuel with
  | zero => intro results queue; cases queue <;> rfl
  | succ fuel ih =>
    intro results queue
    cases queue with
    | nil => rfl
    | cons n rest =>
      unfold tcfindLoopMain tcfindLoop
      rw [processChildrenMain_eq t thr hts, ih]

theorem tcfindMain_eq_of_root (t : PGraph) (thr : CladeTargetStats)
    (fuel root : Nat) (hroot : find_root t = some root) :
    tcfindMain t thr fuel =
      if qualifiesB (calculate_clade_stats t root) thr then
        tcfindLoopMain t thr fuel [root] []
      else if pruneMainB (calculate_clade_stats t root) thr then some []
      else tcfindLoopMain t thr fuel [] [root] := by
  unfold tcfindMain
  rw [hroot]

theorem tcfindMain_eq_of_no_root (t : PGraph) (thr : CladeTargetStats)
    (fuel : Nat) (hroot : find_root t = none) : tcfindMain t thr fuel = none := by
  unfold tcfindMain
  rw [hroot]

/-- C5 (amended).  The historical prune rule of `main.rs`
(`prop * size < threshold.size`) and the current one of `clusters.rs`
(`targets < threshold.targets`) make the two searches return the same list
exactly when the threshold's derived target count `round(prop * size)` equals
its size (true of the default threshold 0.9 / 2); under exact arithmetic
`prop * size` always equals `targets` on the left, but the right-hand bounds
`threshold.size` and `threshold.targets` differ in general. -/
theorem tcfindMain_eq_tcfind (t : PGraph) (thr : CladeTargetStats) (fuel : Nat)
    (hts : thr.targets = thr.size) :
    tcfindMain t thr fuel = tcfind t thr fuel := by
  cases hroot : find_root t with
  | none =>
    rw [tcfindMain_eq_of_no_root t thr fuel hroot, tcfind_eq_of_no_root t thr fuel hroot]
  | some root =>
    rw [tcfindMain_eq_of_root t thr fuel root hroot,
      tcfind_eq_of_root t thr fuel root hroot, pruneMainB_eq t root thr hts,
      tcfindLoopMain_eq t thr hts, tcfindLoopMain_eq t thr hts]

/-- C5 counterexample: with threshold proportion 9/10 and size 10 the derived
target count is 9 < 10, and on `ex5` the historical search prunes the root
(9 targets < size bound 10) and returns nothing, while the current search
proceeds (9 targets = target bound 9) and returns the qualifying child 1. -/
theorem tcfindMain_ne_tcfind_counterexample :
    tcfindMain ex5 thr5 20 = some [] ∧ tcfind ex5 thr5 20 = some [1] ∧
    thr5.targets = 9 ∧ thr5.size = 10 :=
  ⟨by decide, by decide, by decide, by decide⟩

theorem tcfindMain_eq_tcfind_witness :
    tcfindMain ex1 thr1 10 = tcfind ex1 thr1 10 :=
  tcfindMain_eq_tcfind ex1 thr1 10 (by decide)

/-- C9.  Label extraction is canonical: each cluster's labels are sorted, the
list of clusters is sorted by the lexicographic sequence order, and the output
is invariant under permuting the clade-root list, hence a pure function of the
set of clusters, independent of discovery order.  (Determinism of repeated
runs is immediate: the extractor is a function.) -/
theorem extract_clade_tip_labels_canonical (t : PGraph) (ns ms : List Nat)
    (hperm : ns.Perm ms) :
    extract_clade_tip_labels t ns = extract_clade_tip_labels t ms ∧
    List.Sorted (fun a b => a ≤ b) (extract_clade_tip_labels t ns) ∧
    ∀ l ∈ extract_clade_tip_labels t ns, List.Sorted (fun a b => a ≤ b) l := by
  refine ⟨?_, ?_, ?_⟩
  · unfold extract_clade_tip_labels
    refine List.eq_of_perm_of_sorted ?_ (List.sorted_insertionSort _ _)
      (List.sorted_insertionSort _ _)
    have h1 := List.perm_insertionSort (fun a b : List String => a ≤ b)
      (ns.map fun node => List.insertionSort (fun a b => a ≤ b)
        ((get_descendant_leaves t node).map fun tip => (nodeW t tip).label))
    have h2 := List.perm_insertionSort (fun a b : List String => a ≤ b)
      (ms.map fun node => List.insertionSort (fun a b => a ≤ b)
        ((get_descendant_leaves t node).map fun tip => (nodeW t tip).label))
    exact (h1.trans (hperm.map _)).trans h2.symm
  · exact List.sorted_insertionSort _ _
  · intro l hl
    unfold extract_clade_tip_labels at hl
    have hl2 := (List.perm_insertionSort (fun a b : List String => a ≤ b) _).subset hl
    rcases List.mem_map.mp hl2 with ⟨node, _, rfl⟩
    exact List.sorted_insertionSort _ _

theorem extract_clade_tip_labels_canonical_witness :
    ([1, 4] : List Nat).Perm [4, 1] ∧
    extract_clade_tip_labels ex1 [1, 4] = extract_clade_tip_labels ex1 [4, 1] :=
  ⟨by decide, (extract_clade_tip_labels_canonical ex1 [1, 4] [4, 1] (by decide)).1⟩
